import Mathlib

/-!
Verification of the rucio undertaker daemon
(src/lib/rucio/daemons/undertaker/undertaker.py).

The daemon state and one cycle of work are embedded shallowly:

* the module-level dictionary paused_dids becomes an association list
  from a (scope, name) key to a retry-not-before time (Nat seconds);
* datetime values become Nat; the per-cycle wall clock is one value,
  since a cycle reads the clock only to compare and to add offsets;
* the external collaborators (list_expired_dids, delete_dids, randint)
  become oracle fields of a CycleInput: the candidate list, a per-chunk
  outcome function, and a per-key jitter draw;
* the exception classification of run_once's except clauses becomes the
  Outcome inductive: RuleNotFound, a database-family error whose message
  does or does not match one of the four lock regexes (the regexes live in
  rucio.db.sqla.constants, outside src/, so the match result is a Bool
  oracle), and any other exception;
* log statements become abstract events, counters become Nat fields, and
  each delete_dids invocation is recorded in a submission log together
  with the keys the gateway reported as removed.
-/

namespace Undertaker

/-- A DID identity: the (scope, name) pair used as dictionary key. -/
abbrev Key := String × String

/-- The paused_dids dictionary as an association list from key to its
retry-not-before time. -/
abbrev Ledger := List (Key × Nat)

/-- First-match lookup of a key in the paused_dids dictionary. -/
def lookupEntry (k : Key) : Ledger → Option Nat
  | [] => none
  | p :: rest => if p.1 = k then some p.2 else lookupEntry k rest

/-- Membership test: the key is present in paused_dids. -/
def containsKey (k : Key) (L : Ledger) : Bool :=
  (lookupEntry k L).isSome

/-- The refresh loop at the top of run_once: an entry is deleted exactly
when the current time is strictly greater than its stored time. -/
def purge_expired (now : Nat) (L : Ledger) : Ledger :=
  L.filter (fun p => !(decide (p.2 < now)))

/-- A dictionary write: insert the key or overwrite its previous entry. -/
def quarantine (k : Key) (v : Nat) (L : Ledger) : Ledger :=
  (k, v) :: L.filter (fun p => !(decide (p.1 = k)))

/-- The for-loop run on a lock-conflicted chunk: one dictionary write per
did, storing now plus that did's backoff draw. -/
def quarantineChunk (now : Nat) (jitter : Key → Nat) (chunk : List Key) (L : Ledger) : Ledger :=
  chunk.foldl (fun acc did => quarantine did (now + jitter did) acc) L

/-- Modelled from the spec: rucio.common.utils.chunks is not under src/.
Partition a list into consecutive batches of at most n elements; the last
batch may be smaller; batch order is input order (spec section 4.3 step 5). -/
def chunksFuel (n : Nat) : Nat → List Key → List (List Key)
  | _, [] => []
  | 0, _ :: _ => []
  | Nat.succ fuel, x :: xs =>
    if n = 0 then []
    else (x :: xs).take n :: chunksFuel n fuel ((x :: xs).drop n)

/-- Partition with the fuel instantiated to the length of the list, which
always suffices since every step consumes at least one element. -/
def chunks (n : Nat) (l : List Key) : List (List Key) :=
  chunksFuel n l.length l

/-- Outcome of one delete_dids call, as discriminated by the except
clauses of run_once. -/
inductive Outcome
  | success
  | ruleNotFound
  | dbError (lockSig : Bool)
  | otherError
deriving DecidableEq, Repr

/-- Observable log events emitted during one cycle. -/
inductive Ev
  | receiveInfo (n : Nat)
  | deleteInfo (n : Nat)
  | ruleNotFoundError
  | locksWarning
  | dbErrorLog
  | criticalLog
  | noWorkInfo
deriving DecidableEq, Repr

/-- Environment of one cycle: the wall clock, the expired dids returned by
list_expired_dids, the gateway outcome of the i-th submitted chunk, and the
randint backoff draw used for each did on quarantine. -/
structure CycleInput where
  now : Nat
  dids : List Key
  outcome : Nat → Outcome
  jitter : Key → Nat

/-- Observable result of one run_once call. -/
structure CycleResult where
  ledger : Ledger
  deleted : Nat
  contention : Nat
  log : List (Nat × List Key)
  events : List Ev
  aborted : Bool
  deletedKeys : List Key
deriving DecidableEq, Repr

/-- The chunk loop of run_once; i is the index of the next chunk. Each
reached chunk is submitted (logged with the cycle time); the outcome decides
counters, ledger writes and whether the loop is cut short by an exception
that no batch-level handler catches. -/
def processChunks (now : Nat) (jitter : Key → Nat) (o : Nat → Outcome) :
    List (List Key) → Nat → Ledger → CycleResult
  | [], _, L => ⟨L, 0, 0, [], [], false, []⟩
  | c :: rest, i, L =>
    match o i with
    | .success =>
      let r := processChunks now jitter o rest (i + 1) L
      ⟨r.ledger, c.length + r.deleted, r.contention, (now, c) :: r.log,
        .receiveInfo c.length :: .deleteInfo c.length :: r.events, r.aborted,
        c ++ r.deletedKeys⟩
    | .ruleNotFound =>
      let r := processChunks now jitter o rest (i + 1) L
      ⟨r.ledger, r.deleted, r.contention, (now, c) :: r.log,
        .receiveInfo c.length :: .ruleNotFoundError :: r.events, r.aborted,
        r.deletedKeys⟩
    | .dbError true =>
      let r := processChunks now jitter o rest (i + 1) (quarantineChunk now jitter c L)
      ⟨r.ledger, r.deleted, r.contention + 1, (now, c) :: r.log,
        .receiveInfo c.length :: .locksWarning :: r.events, r.aborted,
        r.deletedKeys⟩
    | .dbError false =>
      let r := processChunks now jitter o rest (i + 1) L
      ⟨r.ledger, r.deleted, r.contention, (now, c) :: r.log,
        .receiveInfo c.length :: .dbErrorLog :: r.events, r.aborted,
        r.deletedKeys⟩
    | .otherError =>
      ⟨L, 0, 0, [(now, c)], [.receiveInfo c.length, .criticalLog], true, []⟩

/-- The candidate list of a cycle after the paused-did subtraction. -/
def cycleDids (L : Ledger) (c : CycleInput) : List Key :=
  c.dids.filter (fun d => !(containsKey d (purge_expired c.now L)))

/-- The chunk partition a cycle submits. -/
def cycleChunks (csz : Nat) (L : Ledger) (c : CycleInput) : List (List Key) :=
  chunks csz (cycleDids L c)

/-- One run_once call: purge the paused dictionary, fetch and filter the
candidates, return the no-work result when nothing is left, otherwise run
the chunk loop. The outer try-except of run_once is what makes this total:
an uncaught chunk failure ends the cycle with the aborted flag and a
critical log instead of escaping. -/
def run_once (csz : Nat) (L : Ledger) (c : CycleInput) : CycleResult :=
  let L1 := purge_expired c.now L
  let ds := cycleDids L c
  if ds = [] then ⟨L1, 0, 0, [], [.noWorkInfo], false, []⟩
  else processChunks c.now c.jitter c.outcome (chunks csz ds) 0 L1

/-- Modelled from the spec: rucio.daemons.common.run_daemon is not under
src/. The worker loop runs run_once on each scheduled cycle, threading the
paused dictionary owned by the loop instance. -/
def runTrace (csz : Nat) (L : Ledger) : List CycleInput → List CycleResult
  | [] => []
  | c :: cs => run_once csz L c :: runTrace csz (run_once csz L c).ledger cs

/-- The paused dictionary after a run of consecutive cycles. -/
def runTraceL (csz : Nat) (L : Ledger) (cs : List CycleInput) : Ledger :=
  cs.foldl (fun acc c => (run_once csz acc c).ledger) L

/-- All gateway submissions of a run, each tagged with its cycle time. -/
def traceLog (rs : List CycleResult) : List (Nat × List Key) :=
  (rs.map CycleResult.log).flatten

/-- Configuration of one started undertaker loop instance. -/
structure LoopConfig where
  once : Bool
  sleep_time : Nat
  chunk_size : Nat
deriving DecidableEq, Repr

/-- Default of the sleep_time parameter in the undertaker signature. -/
def undertaker_sleep_default : Nat := 60

/-- Default of the chunk_size parameter in the undertaker signature. -/
def undertaker_chunk_default : Nat := 10

/-- The undertaker entry point records the configuration of the loop it
starts. -/
def undertaker (once : Bool) (sleep_time : Nat) (chunk_size : Nat) : LoopConfig :=
  ⟨once, sleep_time, chunk_size⟩

/-- The run function, as the list of loop-instance configurations it
starts: with once it calls undertaker with once as the only argument, so
the signature defaults fill sleep_time and chunk_size; otherwise it spawns
total_workers threads, each with the forwarded arguments. -/
def run (once : Bool) (total_workers : Nat) (chunk_size : Nat) (sleep_time : Nat) :
    List LoopConfig :=
  if once then [undertaker once undertaker_sleep_default undertaker_chunk_default]
  else (List.range total_workers).map (fun _ => undertaker once sleep_time chunk_size)

/-- The graceful_stop threading event as a boolean flag; stop sets it. -/
def stop (_flag : Bool) : Bool := true

/-- Deleted-counter total over a chunk list given the gateway outcomes. -/
def sumDeleted (o : Nat → Outcome) : Nat → List (List Key) → Nat
  | _, [] => 0
  | i, c :: rest => (if o i = .success then c.length else 0) + sumDeleted o (i + 1) rest

/-- Contention-counter total over a chunk list given the gateway outcomes. -/
def lockCount (o : Nat → Outcome) : Nat → List (List Key) → Nat
  | _, [] => 0
  | i, _ :: rest => (if o i = .dbError true then 1 else 0) + lockCount o (i + 1) rest

/-- Keys belonging to successfully deleted chunks. -/
def successKeys (o : Nat → Outcome) : Nat → List (List Key) → List Key
  | _, [] => []
  | i, c :: rest => (if o i = .success then c else []) ++ successKeys o (i + 1) rest

/-- Sample cycle: three fresh candidates, every deletion succeeds. -/
def allSuccessCycle : CycleInput :=
  ⟨0, [("scope", "a"), ("scope", "b"), ("scope", "c")],
    fun _ => Outcome.success, fun _ => 600⟩

/-- Sample cycle: first batch hits a lock conflict, second succeeds. -/
def mixedLockCycle : CycleInput :=
  ⟨50, [("scope", "a"), ("scope", "b")],
    fun m => if m = 0 then Outcome.dbError true else Outcome.success, fun _ => 700⟩

/-- Sample cycle: first batch raises RuleNotFound, second succeeds. -/
def rnfCycle : CycleInput :=
  ⟨0, [("scope", "a"), ("scope", "b")],
    fun m => if m = 0 then Outcome.ruleNotFound else Outcome.success, fun _ => 600⟩

/-- Sample cycle: first batch fails with an unrecognized database error
message, second succeeds. -/
def dbFalseCycle : CycleInput :=
  ⟨0, [("scope", "a"), ("scope", "b")],
    fun m => if m = 0 then Outcome.dbError false else Outcome.success, fun _ => 600⟩

/-- Sample cycle: three single-key batches, the middle one fails with an
exception that no batch-level handler catches. -/
def abortCycle : CycleInput :=
  ⟨0, [("scope", "a"), ("scope", "b"), ("scope", "c")],
    fun m => if m = 1 then Outcome.otherError else Outcome.success, fun _ => 600⟩

/-- Events emitted per chunk, in submission order. -/
def cycleEvents (o : Nat → Outcome) : Nat → List (List Key) → List Ev
  | _, [] => []
  | i, c :: rest =>
    (match o i with
     | .success => [Ev.receiveInfo c.length, Ev.deleteInfo c.length]
     | .ruleNotFound => [Ev.receiveInfo c.length, Ev.ruleNotFoundError]
     | .dbError true => [Ev.receiveInfo c.length, Ev.locksWarning]
     | .dbError false => [Ev.receiveInfo c.length, Ev.dbErrorLog]
     | .otherError => [Ev.receiveInfo c.length, Ev.criticalLog]) ++ cycleEvents o (i + 1) rest

/-- Ledger after the chunk loop: each lock-conflicted chunk is quarantined. -/
def cycleLedger (now : Nat) (jitter : Key → Nat) (o : Nat → Outcome) :
    Nat → List (List Key) → Ledger → Ledger
  | _, [], L => L
  | i, c :: rest, L =>
    cycleLedger now jitter o (i + 1) rest
      (if o i = .dbError true then quarantineChunk now jitter c L else L)

/-- Claim C5 as stated: after the sweep no entry whose time is less than
or equal to now remains. -/
def C5Claim : Prop :=
  ∀ (L : Ledger) (now : Nat) (p : Key × Nat), p ∈ purge_expired now L → ¬ p.2 ≤ now

/-- Claim C6 as stated: any entry written by the quarantine loop lies in
the open interval between now + 600 and now + 2400 seconds, whenever every
backoff draw lies in the randint(600, 2400) range. -/
def C6Claim : Prop :=
  ∀ (now : Nat) (jitter : Key → Nat) (chunk : List Key) (L : Ledger) (k : Key) (e : Nat),
    k ∈ chunk → (∀ x, 600 ≤ jitter x ∧ jitter x ≤ 2400) →
    lookupEntry k (quarantineChunk now jitter chunk L) = some e →
    now + 600 < e ∧ e < now + 2400

/-- A failure outcome that is neither RuleNotFound nor a recognized
lock-conflict signature, the class the claim calls Unclassified. -/
def unclassifiedFailure (o : Outcome) : Prop :=
  o = .dbError false ∨ o = .otherError

/-- Claim C1 as stated: after a batch fails with an unclassified failure,
no later batch of the cycle is submitted. -/
def C1Claim : Prop :=
  ∀ (csz : Nat) (L : Ledger) (c : CycleInput) (i j : Nat)
    (hj : j < (cycleChunks csz L c).length),
    unclassifiedFailure (c.outcome i) → i < j →
    (c.now, (cycleChunks csz L c).get ⟨j, hj⟩) ∉ (run_once csz L c).log

/-! Helper lemmas about the ledger operations. -/

theorem mem_purge_iff (now : Nat) (L : Ledger) (p : Key × Nat) :
    p ∈ purge_expired now L ↔ p ∈ L ∧ now ≤ p.2 := by
  simp [purge_expired, List.mem_filter, Nat.not_lt]

theorem lookupEntry_filter_ne (k k' : Key) (h : k' ≠ k) :
    ∀ L : Ledger, lookupEntry k (L.filter (fun p => !(decide (p.1 = k')))) = lookupEntry k L := by
  intro L
  induction L with
  | nil => rfl
  | cons p rest ih =>
    by_cases hp : p.1 = k'
    · have hpk : p.1 ≠ k := by rw [hp]; exact h
      simp [List.filter_cons, lookupEntry, hp, hpk, h, ih]
    · by_cases hk : p.1 = k
      · simp [List.filter_cons, lookupEntry, hp, hk, Ne.symm h]
      · simp [List.filter_cons, lookupEntry, hp, hk, ih]

theorem lookupEntry_quarantine (k k' : Key) (v : Nat) (L : Ledger) :
    lookupEntry k (quarantine k' v L) =
      if k' = k then some v else lookupEntry k L := by
  by_cases h : k' = k
  · simp [quarantine, lookupEntry, h]
  · simp [quarantine, lookupEntry, h, lookupEntry_filter_ne k k' h L]

theorem lookupEntry_quarantineChunk (now : Nat) (jitter : Key → Nat) :
    ∀ (chunk : List Key) (L : Ledger) (k : Key),
      lookupEntry k (quarantineChunk now jitter chunk L) =
        if k ∈ chunk then some (now + jitter k) else lookupEntry k L := by
  intro chunk
  induction chunk with
  | nil => intro L k; simp [quarantineChunk]
  | cons d rest ih =>
    intro L k
    have hstep : quarantineChunk now jitter (d :: rest) L =
        quarantineChunk now jitter rest (quarantine d (now + jitter d) L) := by
      simp [quarantineChunk]
    rw [hstep, ih]
    by_cases hk : k ∈ rest
    · simp [hk]
    · by_cases hd : d = k
      · subst hd
        simp [hk, lookupEntry_quarantine]
      · have hne : ¬ k ∈ d :: rest := by
          simp only [List.mem_cons]
          push_neg
          exact ⟨fun hkd => hd hkd.symm, hk⟩
        simp [hk, hne, lookupEntry_quarantine, hd]

theorem lookupEntry_purge_of_le (now : Nat) (k : Key) (e : Nat) :
    ∀ L : Ledger, lookupEntry k L = some e → now ≤ e →
      lookupEntry k (purge_expired now L) = some e := by
  intro L
  induction L with
  | nil => intro h; simp [lookupEntry] at h
  | cons p rest ih =>
    intro h hle
    by_cases hp : p.1 = k
    · have hval : p.2 = e := by simpa [lookupEntry, hp] using h
      simp [purge_expired, List.filter_cons, hval, Nat.not_lt, hle, lookupEntry, hp]
    · have h' : lookupEntry k rest = some e := by simpa [lookupEntry, hp] using h
      have ih' := ih h' hle
      by_cases hkeep : p.2 < now
      · simpa [purge_expired, List.filter_cons, hkeep] using ih'
      · simpa [purge_expired, List.filter_cons, hkeep, lookupEntry, hp] using ih'

/-! Claim C5: the expiry sweep. The code removes an entry only when the
current time is strictly greater than the stored time, so an entry whose
time equals now is retained, against the claim's wording. -/


/-- C5 counterexample: an entry whose retry time equals now survives
purge_expired, so the claim as stated is false. -/
theorem purge_boundary_counterexample : ¬ C5Claim := by
  intro h
  exact h [(("a", "b"), 5)] 5 (("a", "b"), 5) (by decide) (by decide)

/-- C5 amended: purge_expired removes exactly the entries whose retry time
is strictly earlier than now; every remaining entry has retry time at least
now, and every entry with retry time at least now is retained (an entry
equal to now is kept, not removed). -/
theorem purge_removes_exactly_strict_past (now : Nat) (L : Ledger) :
    (∀ p ∈ purge_expired now L, now ≤ p.2) ∧
    (∀ p ∈ L, now ≤ p.2 → p ∈ purge_expired now L) := by
  constructor
  · intro p hp
    exact ((mem_purge_iff now L p).mp hp).2
  · intro p hp hle
    exact (mem_purge_iff now L p).mpr ⟨hp, hle⟩

/-- C5 witness: the amended theorem applied at a concrete ledger. -/
theorem purge_removes_exactly_strict_past_witness :
    (∀ p ∈ purge_expired 5 [(("a", "b"), 5), (("c", "d"), 3)], 5 ≤ p.2) ∧
    (∀ p ∈ [(("a", "b"), 5), (("c", "d"), 3)], 5 ≤ p.2 →
      p ∈ purge_expired 5 [(("a", "b"), 5), (("c", "d"), 3)]) :=
  purge_removes_exactly_strict_past 5 [(("a", "b"), 5), (("c", "d"), 3)]

/-! Claim C6: the quarantine backoff window. The code draws
randint(600, 2400), which includes both endpoints, so the written entry can
equal now + 600 or now + 2400: the open-interval claim fails at the
endpoints and the closed interval is what holds. -/

/-- The constant 600 draw is within the randint(600, 2400) range. -/
theorem le2400 : (600 : Nat) ≤ 2400 := by omega


/-- C6 counterexample: the draw 600 is a legitimate randint(600, 2400)
value and yields an entry equal to now + 600, outside the open interval. -/
theorem backoff_open_interval_counterexample : ¬ C6Claim := by
  intro h
  have h600 := h 0 (fun _ => 600) [("a", "b")] [] ("a", "b") 600
    (by decide) (fun _ => ⟨Nat.le_refl 600, le2400⟩) (by decide)
  omega

/-- C6 amended: for every key of a lock-conflicted chunk the quarantine
loop writes (inserting or overwriting) the entry now + d where d is that
key's randint(600, 2400) draw, and the written retry time lies in the
closed interval from now + 600 to now + 2400 seconds. -/
theorem backoff_closed_interval (now : Nat) (jitter : Key → Nat) (chunk : List Key)
    (L : Ledger) (k : Key) (hk : k ∈ chunk)
    (hj : ∀ x, 600 ≤ jitter x ∧ jitter x ≤ 2400) :
    lookupEntry k (quarantineChunk now jitter chunk L) = some (now + jitter k) ∧
    now + 600 ≤ now + jitter k ∧ now + jitter k ≤ now + 2400 := by
  refine ⟨?_, ?_, ?_⟩
  · rw [lookupEntry_quarantineChunk]
    simp [hk]
  · have := (hj k).1; omega
  · have := (hj k).2; omega

/-- C6 witness: the amended theorem applied at a concrete chunk. -/
theorem backoff_closed_interval_witness :
    lookupEntry ("a", "b")
        (quarantineChunk 100 (fun _ => 600) [("a", "b"), ("c", "d")] []) =
      some (100 + 600) ∧
    100 + 600 ≤ 100 + 600 ∧ 100 + 600 ≤ 100 + 2400 :=
  backoff_closed_interval 100 (fun _ => 600) [("a", "b"), ("c", "d")] [] ("a", "b")
    (by decide) (fun _ => ⟨Nat.le_refl 600, le2400⟩)

/-! Lemmas about the chunk partition. -/

theorem chunksFuel_nil (n fuel : Nat) : chunksFuel n fuel [] = [] := by
  cases fuel <;> rfl

theorem chunks_nil (n : Nat) : chunks n [] = [] := rfl

theorem chunks_zero (l : List Key) : chunks 0 l = [] := by
  cases l with
  | nil => rfl
  | cons x xs => simp [chunks, chunksFuel]

theorem chunksFuel_congr (n : Nat) :
    ∀ (f1 f2 : Nat) (l : List Key), l.length ≤ f1 → l.length ≤ f2 →
      chunksFuel n f1 l = chunksFuel n f2 l := by
  intro f1
  induction f1 with
  | zero =>
    intro f2 l h1 _
    have : l = [] := List.length_eq_zero.mp (Nat.le_zero.mp h1)
    subst this
    rw [chunksFuel_nil, chunksFuel_nil]
  | succ f1 ih =>
    intro f2 l h1 h2
    cases l with
    | nil => rw [chunksFuel_nil, chunksFuel_nil]
    | cons x xs =>
      cases f2 with
      | zero => exact absurd h2 (by simp)
      | succ f2 =>
        by_cases hn : n = 0
        · simp [chunksFuel, hn]
        · have hpos : 0 < n := Nat.pos_of_ne_zero hn
          have hd1 : ((x :: xs).drop n).length ≤ f1 := by
            simp only [List.length_drop, List.length_cons]
            simp only [List.length_cons] at h1
            omega
          have hd2 : ((x :: xs).drop n).length ≤ f2 := by
            simp only [List.length_drop, List.length_cons]
            simp only [List.length_cons] at h2
            omega
          simp only [chunksFuel, hn, if_false]
          rw [ih f2 ((x :: xs).drop n) hd1 hd2]

theorem chunks_cons (n : Nat) (l : List Key) (hn : n ≠ 0) (hl : l ≠ []) :
    chunks n l = l.take n :: chunks n (l.drop n) := by
  cases l with
  | nil => exact absurd rfl hl
  | cons x xs =>
    show chunksFuel n (xs.length + 1) (x :: xs) = _
    simp only [chunksFuel, hn, if_false]
    rw [chunks]
    rw [chunksFuel_congr n xs.length ((x :: xs).drop n).length ((x :: xs).drop n) ?h1 (Nat.le_refl _)]
    case h1 =>
      rw [List.length_drop]
      have := Nat.pos_of_ne_zero hn
      simp only [List.length_cons]
      omega

theorem chunks_eq_nil_of (n : Nat) (l : List Key) (h : n = 0 ∨ l = []) :
    chunks n l = [] := by
  rcases h with h0 | hnil
  · subst h0; exact chunks_zero l
  · subst hnil; exact chunks_nil n

theorem chunks_induction (n : Nat) (motive : List Key → Prop)
    (base : ∀ l : List Key, n = 0 ∨ l = [] → motive l)
    (step : ∀ l : List Key, ¬(n = 0 ∨ l = []) → motive (l.drop n) → motive l) :
    ∀ l : List Key, motive l := by
  intro l
  have H : ∀ (N : Nat) (l2 : List Key), l2.length ≤ N → motive l2 := by
    intro N
    induction N with
    | zero =>
      intro l2 hl2
      exact base l2 (Or.inr (List.length_eq_zero.mp (Nat.le_zero.mp hl2)))
    | succ N ih =>
      intro l2 hl2
      by_cases hc : n = 0 ∨ l2 = []
      · exact base l2 hc
      · push_neg at hc
        refine step l2 (by push_neg; exact hc) (ih (l2.drop n) ?_)
        have h1 : 0 < l2.length := List.length_pos.mpr hc.2
        have h2 : 0 < n := Nat.pos_of_ne_zero hc.1
        rw [List.length_drop]
        omega
  exact H l.length l (Nat.le_refl _)

theorem chunks_flatten (n : Nat) (hn : n ≠ 0) (l : List Key) :
    (chunks n l).flatten = l := by
  induction l using chunks_induction n with
  | base x hx =>
    rcases hx with h0 | hnil
    · exact absurd h0 hn
    · subst hnil; simp [chunks_nil]
  | step x hx ih =>
    push_neg at hx
    rw [chunks_cons n x hn hx.2]
    simp only [List.flatten_cons]
    rw [ih]
    exact List.take_append_drop n x

theorem chunks_length_le (n : Nat) (l : List Key) (b : List Key) (hb : b ∈ chunks n l) :
    b.length ≤ n ∧ b ≠ [] := by
  induction l using chunks_induction n with
  | base x hx =>
    rw [chunks_eq_nil_of n x hx] at hb
    exact absurd hb (List.not_mem_nil b)
  | step x hx ih =>
    have hx' := hx
    push_neg at hx'
    rw [chunks_cons n x hx'.1 hx'.2] at hb
    rcases List.mem_cons.mp hb with hb1 | hb2
    · subst hb1
      refine ⟨by simpa using List.length_take_le n x, ?_⟩
      have hlen : 0 < (x.take n).length := by
        rw [List.length_take]
        have hp1 := List.length_pos.mpr hx'.2
        have hp2 := Nat.pos_of_ne_zero hx'.1
        omega
      exact List.ne_nil_of_length_pos hlen
    · exact ih hb2

theorem mem_of_mem_chunks (n : Nat) (l b : List Key) (hb : b ∈ chunks n l)
    (x : Key) (hx : x ∈ b) : x ∈ l := by
  induction l using chunks_induction n with
  | base y hy =>
    rw [chunks_eq_nil_of n y hy] at hb
    exact absurd hb (List.not_mem_nil b)
  | step y hy ih =>
    have hy' := hy
    push_neg at hy'
    rw [chunks_cons n y hy'.1 hy'.2] at hb
    rcases List.mem_cons.mp hb with hb1 | hb2
    · subst hb1
      exact (List.take_append_drop n y) ▸ List.mem_append_left _ hx
    · exact (List.take_append_drop n y) ▸ List.mem_append_right _ (ih hb2)

theorem chunks_length (n : Nat) (hn : n ≠ 0) (l : List Key) :
    (chunks n l).length = (l.length + n - 1) / n := by
  induction l using chunks_induction n with
  | base x hx =>
    rcases hx with h0 | hnil
    · exact absurd h0 hn
    · subst hnil
      rw [chunks_nil]
      have hnpos := Nat.pos_of_ne_zero hn
      simp only [List.length_nil]
      rw [Nat.div_eq_of_lt (by omega : 0 + n - 1 < n)]
  | step x hx ih =>
    push_neg at hx
    have hnpos : 0 < n := Nat.pos_of_ne_zero hx.1
    have hxpos : 0 < x.length := List.length_pos.mpr hx.2
    rw [chunks_cons n x hx.1 hx.2, List.length_cons, ih, List.length_drop]
    by_cases hcase : x.length ≤ n
    · have hdrop : x.length - n = 0 := by omega
      rw [hdrop]
      rw [Nat.div_eq_of_lt (by omega : 0 + n - 1 < n)]
      have h2n : x.length + n - 1 < 2 * n := by omega
      have h1n : 1 * n ≤ x.length + n - 1 := by omega
      have : (x.length + n - 1) / n = 1 := by
        rw [Nat.div_eq_sub_div hnpos (by omega)]
        rw [Nat.div_eq_of_lt (by omega : x.length + n - 1 - n < n)]
      omega
    · have he1 : x.length - n + n - 1 = x.length - 1 := by omega
      have he2 : x.length + n - 1 = x.length - 1 + n := by omega
      rw [he1, he2, Nat.add_div_right _ hnpos]

theorem chunks_ne_nil_of_ne_nil (n : Nat) (hn : n ≠ 0) (l : List Key) (hl : l ≠ []) :
    chunks n l ≠ [] := by
  rw [chunks_cons n l hn hl]
  simp

theorem chunks_get_full (n : Nat) (hn : n ≠ 0) (l : List Key) :
    ∀ (m : Nat) (h : m + 1 < (chunks n l).length),
      ((chunks n l).get ⟨m, Nat.lt_of_succ_lt h⟩).length = n := by
  induction l using chunks_induction n with
  | base x hx =>
    rw [chunks_eq_nil_of n x hx]
    intro m h
    exact absurd h (by simp)
  | step x hx ih =>
    have hx' := hx
    push_neg at hx'
    rw [chunks_cons n x hx'.1 hx'.2]
    intro m h
    match m with
    | 0 =>
      simp only [List.get]
      have hdrop : x.drop n ≠ [] := by
        intro hd
        rw [List.length_cons, hd, chunks_nil] at h
        simp at h
      have hlen : 0 < (x.drop n).length := List.length_pos.mpr hdrop
      rw [List.length_drop] at hlen
      rw [List.length_take]
      omega
    | Nat.succ m2 =>
      simp only [List.get]
      exact ih m2 (by simpa using Nat.lt_of_succ_lt_succ h)

/-! Characterization of the chunk loop on cycles without an unhandled
failure, and on cycles cut short by one. -/


theorem processChunks_noAbort (now : Nat) (jitter : Key → Nat) (o : Nat → Outcome) :
    ∀ (cl : List (List Key)) (i : Nat) (L : Ledger),
      (∀ m, m < cl.length → o (i + m) ≠ .otherError) →
      processChunks now jitter o cl i L =
        ⟨cycleLedger now jitter o i cl L, sumDeleted o i cl, lockCount o i cl,
          cl.map (fun b => (now, b)), cycleEvents o i cl, false, successKeys o i cl⟩ := by
  intro cl
  induction cl with
  | nil => intro i L _; rfl
  | cons c rest ih =>
    intro i L h
    have h0 : o i ≠ .otherError := by
      have := h 0 (by simp)
      simpa using this
    have hshift : ∀ m, m < rest.length → o (i + 1 + m) ≠ .otherError := by
      intro m hm
      have hh := h (m + 1) (by simpa using Nat.succ_lt_succ hm)
      have he : i + (m + 1) = i + 1 + m := by omega
      rw [he] at hh
      exact hh
    cases hoi : o i with
    | success =>
      simp [processChunks, hoi, ih (i + 1) L hshift, sumDeleted, lockCount,
        successKeys, cycleEvents, cycleLedger]
    | ruleNotFound =>
      simp [processChunks, hoi, ih (i + 1) L hshift, sumDeleted, lockCount,
        successKeys, cycleEvents, cycleLedger]
    | dbError lockSig =>
      cases lockSig with
      | true =>
        simp [processChunks, hoi, ih (i + 1) (quarantineChunk now jitter c L) hshift,
          sumDeleted, lockCount, successKeys, cycleEvents, cycleLedger]
        omega
      | false =>
        simp [processChunks, hoi, ih (i + 1) L hshift, sumDeleted, lockCount,
          successKeys, cycleEvents, cycleLedger]
    | otherError => exact absurd hoi h0

theorem processChunks_abortAt (now : Nat) (jitter : Key → Nat) (o : Nat → Outcome) :
    ∀ (cl : List (List Key)) (m i : Nat) (L : Ledger) (hm : m < cl.length),
      o (i + m) = .otherError → (∀ m2, m2 < m → o (i + m2) ≠ .otherError) →
      processChunks now jitter o cl i L =
        ⟨cycleLedger now jitter o i (cl.take m) L, sumDeleted o i (cl.take m),
          lockCount o i (cl.take m),
          (cl.take (m + 1)).map (fun b => (now, b)),
          cycleEvents o i (cl.take m) ++
            [Ev.receiveInfo ((cl.get ⟨m, hm⟩).length), Ev.criticalLog],
          true, successKeys o i (cl.take m)⟩ := by
  intro cl
  induction cl with
  | nil => intro m i L hm; exact absurd hm (by simp)
  | cons c rest ih =>
    intro m i L hm hab hbefore
    match m with
    | 0 =>
      have h0 : o i = .otherError := by simpa using hab
      simp [processChunks, h0, sumDeleted, lockCount, successKeys, cycleEvents,
        cycleLedger, List.take_succ_cons]
    | Nat.succ m2 =>
      have h0 : o i ≠ .otherError := by
        have := hbefore 0 (by omega)
        simpa using this
      have hab' : o (i + 1 + m2) = .otherError := by
        have he : i + (m2 + 1) = i + 1 + m2 := by omega
        rw [← he]
        exact hab
      have hbefore' : ∀ m3, m3 < m2 → o (i + 1 + m3) ≠ .otherError := by
        intro m3 hm3
        have hh := hbefore (m3 + 1) (by omega)
        have he : i + (m3 + 1) = i + 1 + m3 := by omega
        rw [he] at hh
        exact hh
      have hm' : m2 < rest.length := by simpa using Nat.lt_of_succ_lt_succ hm
      cases hoi : o i with
      | success =>
        simp [processChunks, hoi, ih m2 (i + 1) L hm' hab' hbefore', sumDeleted,
          lockCount, successKeys, cycleEvents, cycleLedger, List.take_succ_cons]
      | ruleNotFound =>
        simp [processChunks, hoi, ih m2 (i + 1) L hm' hab' hbefore', sumDeleted,
          lockCount, successKeys, cycleEvents, cycleLedger, List.take_succ_cons]
      | dbError lockSig =>
        cases lockSig with
        | true =>
          simp [processChunks, hoi,
            ih m2 (i + 1) (quarantineChunk now jitter c L) hm' hab' hbefore',
            sumDeleted, lockCount, successKeys, cycleEvents, cycleLedger,
            List.take_succ_cons]
          omega
        | false =>
          simp [processChunks, hoi, ih m2 (i + 1) L hm' hab' hbefore', sumDeleted,
            lockCount, successKeys, cycleEvents, cycleLedger, List.take_succ_cons]
      | otherError => exact absurd hoi h0

theorem processChunks_lookup_inv (now : Nat) (jitter : Key → Nat) (o : Nat → Outcome) :
    ∀ (cl : List (List Key)) (i : Nat) (L : Ledger) (k : Key),
      lookupEntry k L = some (now + jitter k) →
      lookupEntry k (processChunks now jitter o cl i L).ledger = some (now + jitter k) := by
  intro cl
  induction cl with
  | nil => intro i L k h; simpa [processChunks] using h
  | cons c rest ih =>
    intro i L k h
    cases hoi : o i with
    | success => simpa [processChunks, hoi] using ih (i + 1) L k h
    | ruleNotFound => simpa [processChunks, hoi] using ih (i + 1) L k h
    | dbError lockSig =>
      cases lockSig with
      | true =>
        have h' : lookupEntry k (quarantineChunk now jitter c L) = some (now + jitter k) := by
          rw [lookupEntry_quarantineChunk]
          by_cases hk : k ∈ c
          · simp [hk]
          · simp [hk, h]
        simpa [processChunks, hoi] using ih (i + 1) (quarantineChunk now jitter c L) k h'
      | false => simpa [processChunks, hoi] using ih (i + 1) L k h
    | otherError => simpa [processChunks, hoi] using h

theorem processChunks_quarantines (now : Nat) (jitter : Key → Nat) (o : Nat → Outcome) :
    ∀ (cl : List (List Key)) (m i : Nat) (L : Ledger) (k : Key) (hm : m < cl.length),
      o (i + m) = .dbError true → (∀ m2, m2 < m → o (i + m2) ≠ .otherError) →
      k ∈ cl.get ⟨m, hm⟩ →
      lookupEntry k (processChunks now jitter o cl i L).ledger = some (now + jitter k) := by
  intro cl
  induction cl with
  | nil => intro m i L k hm; exact absurd hm (by simp)
  | cons c rest ih =>
    intro m i L k hm hlock hbefore hk
    match m with
    | 0 =>
      have h0 : o i = .dbError true := by simpa using hlock
      have hk0 : k ∈ c := by simpa using hk
      have hq : lookupEntry k (quarantineChunk now jitter c L) = some (now + jitter k) := by
        rw [lookupEntry_quarantineChunk]
        simp [hk0]
      simpa [processChunks, h0] using
        processChunks_lookup_inv now jitter o rest (i + 1) (quarantineChunk now jitter c L) k hq
    | Nat.succ m2 =>
      have h0 : o i ≠ .otherError := by
        have := hbefore 0 (by omega)
        simpa using this
      have hm' : m2 < rest.length := by simpa using Nat.lt_of_succ_lt_succ hm
      have hlock' : o (i + 1 + m2) = .dbError true := by
        have he : i + (m2 + 1) = i + 1 + m2 := by omega
        rw [← he]
        exact hlock
      have hbefore' : ∀ m3, m3 < m2 → o (i + 1 + m3) ≠ .otherError := by
        intro m3 hm3
        have hh := hbefore (m3 + 1) (by omega)
        have he : i + (m3 + 1) = i + 1 + m3 := by omega
        rw [he] at hh
        exact hh
      have hk' : k ∈ rest.get ⟨m2, hm'⟩ := by simpa using hk
      cases hoi : o i with
      | success => simpa [processChunks, hoi] using ih m2 (i + 1) L k hm' hlock' hbefore' hk'
      | ruleNotFound => simpa [processChunks, hoi] using ih m2 (i + 1) L k hm' hlock' hbefore' hk'
      | dbError lockSig =>
        cases lockSig with
        | true =>
          simpa [processChunks, hoi] using
            ih m2 (i + 1) (quarantineChunk now jitter c L) k hm' hlock' hbefore' hk'
        | false => simpa [processChunks, hoi] using ih m2 (i + 1) L k hm' hlock' hbefore' hk'
      | otherError => exact absurd hoi h0

theorem mem_successKeys (o : Nat → Outcome) :
    ∀ (cl : List (List Key)) (i : Nat) (x : Key), x ∈ successKeys o i cl →
      ∃ m, ∃ hm : m < cl.length, o (i + m) = .success ∧ x ∈ cl.get ⟨m, hm⟩ := by
  intro cl
  induction cl with
  | nil => intro i x h; simp [successKeys] at h
  | cons c rest ih =>
    intro i x h
    rw [successKeys] at h
    rcases List.mem_append.mp h with h1 | h2
    · by_cases hoi : o i = .success
      · refine ⟨0, by simp, by simpa using hoi, ?_⟩
        rw [if_pos hoi] at h1
        simpa using h1
      · rw [if_neg hoi] at h1
        exact absurd h1 (List.not_mem_nil x)
    · obtain ⟨m, hm, hsucc, hx⟩ := ih (i + 1) x h2
      refine ⟨m + 1, by simpa using Nat.succ_lt_succ hm, ?_, ?_⟩
      · have he : i + (m + 1) = i + 1 + m := by omega
        rw [he]
        exact hsucc
      · simpa using hx

theorem nodup_chunk_get_disjoint (cl : List (List Key)) (hnd : cl.flatten.Nodup)
    (m m' : Nat) (hm : m < cl.length) (hm' : m' < cl.length) (hne : m ≠ m') (x : Key)
    (h1 : x ∈ cl.get ⟨m, hm⟩) (h2 : x ∈ cl.get ⟨m', hm'⟩) : False := by
  rcases List.nodup_flatten.mp hnd with ⟨hall, hpair⟩
  have hpg := List.pairwise_iff_get.mp hpair
  rcases Nat.lt_or_ge m m' with hlt | hge
  · exact hpg ⟨m, hm⟩ ⟨m', hm'⟩ (Fin.mk_lt_mk.mpr hlt) h1 h2
  · have hlt : m' < m := by omega
    exact hpg ⟨m', hm'⟩ ⟨m, hm⟩ (Fin.mk_lt_mk.mpr hlt) h2 h1

theorem countP_chunk_mem_eq_one :
    ∀ (cl : List (List Key)) (x : Key), cl.flatten.Nodup → x ∈ cl.flatten →
      cl.countP (fun b => decide (x ∈ b)) = 1 := by
  intro cl
  induction cl with
  | nil => intro x _ hx; simp at hx
  | cons b rest ih =>
    intro x hnd hx
    rw [List.flatten_cons] at hnd hx
    rcases List.nodup_append.mp hnd with ⟨hb, hrest, hdisj⟩
    rw [List.countP_cons]
    by_cases hxb : x ∈ b
    · have hxr : x ∉ rest.flatten := fun hh => hdisj hxb hh
      have hz : rest.countP (fun b2 => decide (x ∈ b2)) = 0 := by
        rw [List.countP_eq_zero]
        intro b2 hb2
        simp only [decide_eq_true_eq]
        intro hxb2
        exact hxr (List.mem_flatten.mpr ⟨b2, hb2, hxb2⟩)
      simp [hz, hxb]
    · have hxr : x ∈ rest.flatten := by
        rcases List.mem_append.mp hx with h | h
        · exact absurd h hxb
        · exact h
      simp [hxb, ih x hrest hxr]

theorem run_once_of_ne_nil (csz : Nat) (L : Ledger) (c : CycleInput)
    (h : cycleDids L c ≠ []) :
    run_once csz L c =
      processChunks c.now c.jitter c.outcome (cycleChunks csz L c) 0 (purge_expired c.now L) := by
  simp [run_once, cycleChunks, h]

theorem cycleDids_ne_nil_of_lt (csz : Nat) (L : Ledger) (c : CycleInput) (i : Nat)
    (hi : i < (cycleChunks csz L c).length) : cycleDids L c ≠ [] := by
  intro hd
  rw [cycleChunks, hd, chunks_nil] at hi
  simp at hi

theorem csz_ne_zero_of_lt (csz : Nat) (L : Ledger) (c : CycleInput) (i : Nat)
    (hi : i < (cycleChunks csz L c).length) : csz ≠ 0 := by
  intro h0
  subst h0
  rw [cycleChunks, chunks_zero] at hi
  simp at hi

theorem runTrace_length (csz : Nat) :
    ∀ (cs : List CycleInput) (L : Ledger), (runTrace csz L cs).length = cs.length := by
  intro cs
  induction cs with
  | nil => intro L; rfl
  | cons c cs2 ih => intro L; simp [runTrace, ih]

theorem mem_cycleEvents_locks (o : Nat → Outcome) :
    ∀ (cl : List (List Key)) (i m : Nat), m < cl.length → o (i + m) = .dbError true →
      Ev.locksWarning ∈ cycleEvents o i cl := by
  intro cl
  induction cl with
  | nil => intro i m hm; exact absurd hm (by simp)
  | cons c rest ih =>
    intro i m hm hdb
    rw [cycleEvents]
    apply List.mem_append.mpr
    match m with
    | 0 =>
      left
      have h0 : o i = .dbError true := by simpa using hdb
      simp [h0]
    | Nat.succ m2 =>
      right
      have hm' : m2 < rest.length := by simpa using Nat.lt_of_succ_lt_succ hm
      have hdb' : o (i + 1 + m2) = .dbError true := by
        have he : i + (m2 + 1) = i + 1 + m2 := by omega
        rw [← he]
        exact hdb
      exact ih (i + 1) m2 hm' hdb'

theorem mem_cycleEvents_rnf (o : Nat → Outcome) :
    ∀ (cl : List (List Key)) (i m : Nat), m < cl.length → o (i + m) = .ruleNotFound →
      Ev.ruleNotFoundError ∈ cycleEvents o i cl := by
  intro cl
  induction cl with
  | nil => intro i m hm; exact absurd hm (by simp)
  | cons c rest ih =>
    intro i m hm hdb
    rw [cycleEvents]
    apply List.mem_append.mpr
    match m with
    | 0 =>
      left
      have h0 : o i = .ruleNotFound := by simpa using hdb
      simp [h0]
    | Nat.succ m2 =>
      right
      have hm' : m2 < rest.length := by simpa using Nat.lt_of_succ_lt_succ hm
      have hdb' : o (i + 1 + m2) = .ruleNotFound := by
        have he : i + (m2 + 1) = i + 1 + m2 := by omega
        rw [← he]
        exact hdb
      exact ih (i + 1) m2 hm' hdb'

theorem processChunks_log_mem (now : Nat) (jitter : Key → Nat) (o : Nat → Outcome) :
    ∀ (cl : List (List Key)) (i : Nat) (L : Ledger) (p : Nat × List Key),
      p ∈ (processChunks now jitter o cl i L).log → p.1 = now ∧ p.2 ∈ cl := by
  intro cl
  induction cl with
  | nil => intro i L p hp; simp [processChunks] at hp
  | cons c rest ih =>
    intro i L p hp
    cases hoi : o i with
    | success =>
      rw [processChunks] at hp
      simp only [hoi] at hp
      rcases List.mem_cons.mp hp with h1 | h2
      · subst h1; exact ⟨rfl, by simp⟩
      · obtain ⟨ht, hm⟩ := ih (i + 1) L p h2
        exact ⟨ht, by simp [hm]⟩
    | ruleNotFound =>
      rw [processChunks] at hp
      simp only [hoi] at hp
      rcases List.mem_cons.mp hp with h1 | h2
      · subst h1; exact ⟨rfl, by simp⟩
      · obtain ⟨ht, hm⟩ := ih (i + 1) L p h2
        exact ⟨ht, by simp [hm]⟩
    | dbError lockSig =>
      cases lockSig with
      | true =>
        rw [processChunks] at hp
        simp only [hoi] at hp
        rcases List.mem_cons.mp hp with h1 | h2
        · subst h1; exact ⟨rfl, by simp⟩
        · obtain ⟨ht, hm⟩ := ih (i + 1) (quarantineChunk now jitter c L) p h2
          exact ⟨ht, by simp [hm]⟩
      | false =>
        rw [processChunks] at hp
        simp only [hoi] at hp
        rcases List.mem_cons.mp hp with h1 | h2
        · subst h1; exact ⟨rfl, by simp⟩
        · obtain ⟨ht, hm⟩ := ih (i + 1) L p h2
          exact ⟨ht, by simp [hm]⟩
    | otherError =>
      rw [processChunks] at hp
      simp only [hoi] at hp
      have h1 : p = (now, c) := by simpa using hp
      subst h1
      exact ⟨rfl, by simp⟩

theorem processChunks_ledger_pres (now : Nat) (jitter : Key → Nat) (o : Nat → Outcome) :
    ∀ (cl : List (List Key)) (i : Nat) (L : Ledger) (k : Key), (∀ b ∈ cl, k ∉ b) →
      lookupEntry k (processChunks now jitter o cl i L).ledger = lookupEntry k L := by
  intro cl
  induction cl with
  | nil => intro i L k _; rfl
  | cons c rest ih =>
    intro i L k h
    have hc : k ∉ c := h c (by simp)
    have hrest : ∀ b ∈ rest, k ∉ b := fun b hb => h b (by simp [hb])
    cases hoi : o i with
    | success => simpa [processChunks, hoi] using ih (i + 1) L k hrest
    | ruleNotFound => simpa [processChunks, hoi] using ih (i + 1) L k hrest
    | dbError lockSig =>
      cases lockSig with
      | true =>
        have hq : lookupEntry k (quarantineChunk now jitter c L) = lookupEntry k L := by
          rw [lookupEntry_quarantineChunk]
          simp [hc]
        rw [processChunks]
        simp only [hoi]
        rw [ih (i + 1) (quarantineChunk now jitter c L) k hrest, hq]
      | false => simpa [processChunks, hoi] using ih (i + 1) L k hrest
    | otherError => simp [processChunks, hoi]

theorem not_mem_cycleDids (L : Ledger) (c : CycleInput) (k : Key)
    (h : (lookupEntry k (purge_expired c.now L)).isSome) : k ∉ cycleDids L c := by
  intro hmem
  have hf := (List.mem_filter.mp hmem).2
  simp [cycleDids, containsKey, h] at hf

theorem run_once_log_time (csz : Nat) (L : Ledger) (c : CycleInput) (p : Nat × List Key)
    (hp : p ∈ (run_once csz L c).log) : p.1 = c.now := by
  by_cases hds : cycleDids L c = []
  · simp [run_once, hds] at hp
  · rw [run_once_of_ne_nil csz L c hds] at hp
    exact (processChunks_log_mem c.now c.jitter c.outcome (cycleChunks csz L c) 0
      (purge_expired c.now L) p hp).1

theorem run_once_preserves_entry (csz : Nat) (L : Ledger) (c : CycleInput) (k : Key) (e : Nat)
    (hk : lookupEntry k L = some e) (hle : c.now ≤ e) :
    (∀ p ∈ (run_once csz L c).log, k ∉ p.2) ∧
    lookupEntry k (run_once csz L c).ledger = some e := by
  have hkp : lookupEntry k (purge_expired c.now L) = some e :=
    lookupEntry_purge_of_le c.now k e L hk hle
  have hnd : k ∉ cycleDids L c := not_mem_cycleDids L c k (by simp [hkp])
  by_cases hds : cycleDids L c = []
  · constructor
    · intro p hp
      simp [run_once, hds] at hp
    · simpa [run_once, hds] using hkp
  · rw [run_once_of_ne_nil csz L c hds]
    constructor
    · intro p hp hkp2
      have hmem := (processChunks_log_mem c.now c.jitter c.outcome (cycleChunks csz L c) 0
        (purge_expired c.now L) p hp).2
      exact hnd (mem_of_mem_chunks csz (cycleDids L c) p.2 hmem k hkp2)
    · rw [processChunks_ledger_pres c.now c.jitter c.outcome (cycleChunks csz L c) 0
        (purge_expired c.now L) k ?hb]
      · exact hkp
      case hb =>
        intro b hb hkb
        exact hnd (mem_of_mem_chunks csz (cycleDids L c) b hb k hkb)

theorem traceLog_cons (r : CycleResult) (rs : List CycleResult) :
    traceLog (r :: rs) = r.log ++ traceLog rs := by
  simp [traceLog]

theorem traceLog_append (rs rs2 : List CycleResult) :
    traceLog (rs ++ rs2) = traceLog rs ++ traceLog rs2 := by
  simp [traceLog]

theorem runTrace_append (csz : Nat) :
    ∀ (cs1 cs2 : List CycleInput) (L : Ledger),
      runTrace csz L (cs1 ++ cs2) =
        runTrace csz L cs1 ++ runTrace csz (runTraceL csz L cs1) cs2 := by
  intro cs1
  induction cs1 with
  | nil => intro cs2 L; simp [runTrace, runTraceL]
  | cons c rest ih =>
    intro cs2 L
    rw [List.cons_append]
    rw [show runTrace csz L (c :: (rest ++ cs2)) =
        run_once csz L c :: runTrace csz (run_once csz L c).ledger (rest ++ cs2) from rfl]
    rw [ih cs2 (run_once csz L c).ledger]
    rw [show runTrace csz L (c :: rest) =
        run_once csz L c :: runTrace csz (run_once csz L c).ledger rest from rfl]
    rw [show runTraceL csz L (c :: rest) =
        runTraceL csz (run_once csz L c).ledger rest from rfl]
    simp

theorem runTrace_log_time_mem (csz : Nat) :
    ∀ (cs : List CycleInput) (L : Ledger) (p : Nat × List Key),
      p ∈ traceLog (runTrace csz L cs) → ∃ c2 ∈ cs, p.1 = c2.now := by
  intro cs
  induction cs with
  | nil => intro L p hp; simp [runTrace, traceLog] at hp
  | cons c rest ih =>
    intro L p hp
    rw [show runTrace csz L (c :: rest) =
        run_once csz L c :: runTrace csz (run_once csz L c).ledger rest from rfl,
      traceLog_cons] at hp
    rcases List.mem_append.mp hp with h1 | h2
    · exact ⟨c, by simp, run_once_log_time csz L c p h1⟩
    · obtain ⟨c2, hc2, hpt⟩ := ih (run_once csz L c).ledger p h2
      exact ⟨c2, by simp [hc2], hpt⟩

theorem trace_exclusion (csz : Nat) (k : Key) (e : Nat) :
    ∀ (cs : List CycleInput) (L : Ledger),
      lookupEntry k L = some e → (cs.map CycleInput.now).Sorted (· ≤ ·) →
      ∀ p ∈ traceLog (runTrace csz L cs), p.1 ≤ e → k ∉ p.2 := by
  intro cs
  induction cs with
  | nil => intro L hk hs p hp; simp [runTrace, traceLog] at hp
  | cons c rest ih =>
    intro L hk hs p hp hpe
    rw [List.map_cons] at hs
    have hs' := List.sorted_cons.mp hs
    rw [show runTrace csz L (c :: rest) =
        run_once csz L c :: runTrace csz (run_once csz L c).ledger rest from rfl,
      traceLog_cons] at hp
    rcases List.mem_append.mp hp with h1 | h2
    · by_cases hle : c.now ≤ e
      · exact (run_once_preserves_entry csz L c k e hk hle).1 p h1
      · exfalso
        have ht := run_once_log_time csz L c p h1
        omega
    · by_cases hle : c.now ≤ e
      · have hpres := (run_once_preserves_entry csz L c k e hk hle).2
        exact ih (run_once csz L c).ledger hpres hs'.2 p h2 hpe
      · exfalso
        obtain ⟨c2, hc2, hpt⟩ := runTrace_log_time_mem csz rest (run_once csz L c).ledger p h2
        have hcc : c.now ≤ c2.now := hs'.1 c2.now (List.mem_map.mpr ⟨c2, hc2, rfl⟩)
        omega

/-! Claim C8: a cycle with no unquarantined candidates is a no-op. -/

/-- C8: when every candidate is quarantined (or there are none), run_once
logs the no-work message and returns: the ledger is only purged, there are
no gateway submissions, no counter increments, no quarantine insertions,
nothing deleted, and the cycle is not an error. -/
theorem empty_candidates_noop (csz : Nat) (L : Ledger) (c : CycleInput)
    (h : ∀ d ∈ c.dids, containsKey d (purge_expired c.now L) = true) :
    run_once csz L c = ⟨purge_expired c.now L, 0, 0, [], [Ev.noWorkInfo], false, []⟩ := by
  have hds : cycleDids L c = [] := by
    rw [cycleDids]
    apply List.filter_eq_nil_iff.mpr
    intro d hd
    simp [h d hd]
  simp [run_once, hds]

/-- C8 witness: one quarantined candidate whose entry has not expired. -/
theorem empty_candidates_noop_witness :
    run_once 10 [(("scope", "a"), 7)]
        ⟨5, [("scope", "a")], fun _ => Outcome.success, fun _ => 600⟩ =
      ⟨purge_expired 5 [(("scope", "a"), 7)], 0, 0, [], [Ev.noWorkInfo], false, []⟩ :=
  empty_candidates_noop 10 [(("scope", "a"), 7)]
    ⟨5, [("scope", "a")], fun _ => Outcome.success, fun _ => 600⟩ (by decide)

/-! Claim C2: quarantine exclusion across the run. -/

/-- C2: if after some prefix of the run (the cycles up to and including the
one that quarantined it, all at times at most T) the key carries the ledger
entry e, then no batch submitted at any time in the window after T up to e
contains that key: the entry survives each purge while now is at most e,
the key is filtered from every candidate list, and therefore from every
chunk, until the entry expires. -/
theorem quarantined_key_not_resubmitted_before_expiry
    (csz : Nat) (L0 : Ledger) (cs1 cs2 : List CycleInput) (k : Key) (e T : Nat)
    (hsort : ((cs1 ++ cs2).map CycleInput.now).Sorted (· ≤ ·))
    (hT : ∀ c ∈ cs1, c.now ≤ T)
    (hq : lookupEntry k (runTraceL csz L0 cs1) = some e) :
    ∀ p ∈ traceLog (runTrace csz L0 (cs1 ++ cs2)), T < p.1 → p.1 ≤ e → k ∉ p.2 := by
  intro p hp hT1 hpe
  rw [runTrace_append, traceLog_append] at hp
  rcases List.mem_append.mp hp with h1 | h2
  · exfalso
    obtain ⟨c2, hc2, hpt⟩ := runTrace_log_time_mem csz cs1 L0 p h1
    have := hT c2 hc2
    omega
  · have hsort2 : (cs2.map CycleInput.now).Sorted (· ≤ ·) := by
      rw [List.map_append] at hsort
      exact (List.pairwise_append.mp hsort).2.1
    exact trace_exclusion csz k e cs2 (runTraceL csz L0 cs1) hq hsort2 p h2 hpe

/-- C2 witness: the key quarantined at time 10 with entry 610 reappears in
the candidate list of the cycle at time 20; the batch actually submitted at
time 20, inside the exclusion window, does not contain it. -/
theorem quarantined_key_not_resubmitted_before_expiry_witness :
    ("scope", "a") ∉ ((20 : Nat), [(("scope", "b") : Key)]).2 :=
  quarantined_key_not_resubmitted_before_expiry 10 []
    [⟨10, [("scope", "a")], fun _ => Outcome.dbError true, fun _ => 600⟩]
    [⟨20, [("scope", "a"), ("scope", "b")], fun _ => Outcome.success, fun _ => 600⟩]
    ("scope", "a") 610 10 (by decide) (by decide) (by decide)
    ((20 : Nat), [(("scope", "b") : Key)]) (by decide) (by decide) (by decide)

/-! Claim C3: chunking and coverage. -/

/-- C3: spec-modelled for rucio.common.utils.chunks. In a cycle with a
positive chunk size, a non-empty non-quarantined candidate list and no
cycle-aborting failure, the submitted batches are exactly the chunk
partition in input order: their number is the ceiling of N over k, each is
non-empty of size at most k, every batch except possibly the last has size
exactly k, their concatenation is the candidate list, and each candidate
appears in exactly one submitted batch. -/
theorem cycle_chunking_partitions_candidates (csz : Nat) (L : Ledger) (c : CycleInput)
    (hcsz : csz ≠ 0) (hne : cycleDids L c ≠ []) (hnd : c.dids.Nodup)
    (hnoab : ∀ m, m < (cycleChunks csz L c).length → c.outcome m ≠ .otherError) :
    (run_once csz L c).log = (cycleChunks csz L c).map (fun b => (c.now, b)) ∧
    (cycleChunks csz L c).length = ((cycleDids L c).length + csz - 1) / csz ∧
    (∀ b ∈ cycleChunks csz L c, b.length ≤ csz ∧ b ≠ []) ∧
    (∀ (m : Nat) (h : m + 1 < (cycleChunks csz L c).length),
      ((cycleChunks csz L c).get ⟨m, Nat.lt_of_succ_lt h⟩).length = csz) ∧
    (cycleChunks csz L c).flatten = cycleDids L c ∧
    (∀ x ∈ cycleDids L c,
      ((run_once csz L c).log.map Prod.snd).countP (fun b => decide (x ∈ b)) = 1) := by
  have hrun := run_once_of_ne_nil csz L c hne
  have hpc := processChunks_noAbort c.now c.jitter c.outcome (cycleChunks csz L c) 0
    (purge_expired c.now L) (by intro m hm; simpa using hnoab m hm)
  have hflat : (cycleChunks csz L c).flatten = cycleDids L c :=
    chunks_flatten csz hcsz (cycleDids L c)
  have hlog : (run_once csz L c).log = (cycleChunks csz L c).map (fun b => (c.now, b)) := by
    rw [hrun, hpc]
  refine ⟨hlog, ?_, ?_, ?_, hflat, ?_⟩
  · exact chunks_length csz hcsz (cycleDids L c)
  · intro b hb
    exact chunks_length_le csz (cycleDids L c) b hb
  · exact chunks_get_full csz hcsz (cycleDids L c)
  · intro x hx
    rw [hlog]
    have hm2 : ((cycleChunks csz L c).map (fun b => (c.now, b))).map Prod.snd =
        cycleChunks csz L c := by
      simp
    rw [hm2]
    apply countP_chunk_mem_eq_one
    · rw [hflat]
      exact hnd.filter _
    · rw [hflat]
      exact hx

/-- C3 witness: three fresh candidates with chunk size two, all successes. -/
theorem cycle_chunking_partitions_candidates_witness :
    (run_once 2 [] allSuccessCycle).log =
      (cycleChunks 2 [] allSuccessCycle).map (fun b => (allSuccessCycle.now, b)) ∧
    (cycleChunks 2 [] allSuccessCycle).length =
      ((cycleDids [] allSuccessCycle).length + 2 - 1) / 2 ∧
    (∀ b ∈ cycleChunks 2 [] allSuccessCycle, b.length ≤ 2 ∧ b ≠ []) ∧
    (∀ (m : Nat) (h : m + 1 < (cycleChunks 2 [] allSuccessCycle).length),
      ((cycleChunks 2 [] allSuccessCycle).get ⟨m, Nat.lt_of_succ_lt h⟩).length = 2) ∧
    (cycleChunks 2 [] allSuccessCycle).flatten = cycleDids [] allSuccessCycle ∧
    (∀ x ∈ cycleDids [] allSuccessCycle,
      ((run_once 2 [] allSuccessCycle).log.map Prod.snd).countP (fun b => decide (x ∈ b)) = 1) :=
  cycle_chunking_partitions_candidates 2 [] allSuccessCycle (by decide) (by decide) (by decide)
    (fun _ _ hcontra => Outcome.noConfusion hcontra)

/-! Claim C4: lock-conflict contention isolation. -/

/-- C4: in a cycle without unhandled failures, when batch i fails with a
recognized lock-conflict signature and batch j succeeds, every key of batch
i ends the cycle quarantined with the fresh entry now plus its draw and is
not among the deleted keys, the contention counter counts one per
lock-conflicted batch, a warning is logged, batch j is still submitted, the
deleted counter sums exactly the successful batch sizes, and the cycle is
not aborted. -/
theorem lock_conflict_batch_quarantined_cycle_continues
    (csz : Nat) (L : Ledger) (c : CycleInput) (i j : Nat)
    (hi : i < (cycleChunks csz L c).length) (hj : j < (cycleChunks csz L c).length)
    (hnd : c.dids.Nodup)
    (hlock : c.outcome i = .dbError true) (hsucc : c.outcome j = .success)
    (hnoab : ∀ m, m < (cycleChunks csz L c).length → c.outcome m ≠ .otherError) :
    (∀ k ∈ (cycleChunks csz L c).get ⟨i, hi⟩,
      lookupEntry k (run_once csz L c).ledger = some (c.now + c.jitter k) ∧
      k ∉ (run_once csz L c).deletedKeys) ∧
    (run_once csz L c).contention = lockCount c.outcome 0 (cycleChunks csz L c) ∧
    Ev.locksWarning ∈ (run_once csz L c).events ∧
    (c.now, (cycleChunks csz L c).get ⟨j, hj⟩) ∈ (run_once csz L c).log ∧
    (run_once csz L c).deleted = sumDeleted c.outcome 0 (cycleChunks csz L c) ∧
    (run_once csz L c).aborted = false := by
  have hne := cycleDids_ne_nil_of_lt csz L c i hi
  have hcsz := csz_ne_zero_of_lt csz L c i hi
  have hrun := run_once_of_ne_nil csz L c hne
  have hpc := processChunks_noAbort c.now c.jitter c.outcome (cycleChunks csz L c) 0
    (purge_expired c.now L) (by intro m hm; simpa using hnoab m hm)
  have hflat := chunks_flatten csz hcsz (cycleDids L c)
  have hndflat : (cycleChunks csz L c).flatten.Nodup := by
    rw [show (cycleChunks csz L c).flatten = cycleDids L c from hflat]
    exact hnd.filter _
  refine ⟨?_, ?_, ?_, ?_, ?_, ?_⟩
  · intro k hk
    constructor
    · rw [hrun]
      apply processChunks_quarantines c.now c.jitter c.outcome (cycleChunks csz L c) i 0
        (purge_expired c.now L) k hi
      · simpa using hlock
      · intro m2 hm2
        simpa using hnoab m2 (Nat.lt_trans hm2 hi)
      · exact hk
    · rw [hrun, hpc]
      show k ∉ successKeys c.outcome 0 (cycleChunks csz L c)
      intro hmem
      obtain ⟨m, hm, hs, hkm⟩ := mem_successKeys c.outcome (cycleChunks csz L c) 0 k hmem
      have hs' : c.outcome m = .success := by simpa using hs
      have hne2 : m ≠ i := by
        intro hmi
        rw [hmi, hlock] at hs'
        exact Outcome.noConfusion hs'
      exact nodup_chunk_get_disjoint (cycleChunks csz L c) hndflat m i hm hi hne2 k hkm hk
  · rw [hrun, hpc]
  · rw [hrun, hpc]
    show Ev.locksWarning ∈ cycleEvents c.outcome 0 (cycleChunks csz L c)
    exact mem_cycleEvents_locks c.outcome (cycleChunks csz L c) 0 i hi (by simpa using hlock)
  · rw [hrun, hpc]
    show (c.now, (cycleChunks csz L c).get ⟨j, hj⟩) ∈
      (cycleChunks csz L c).map (fun b => (c.now, b))
    exact List.mem_map.mpr ⟨(cycleChunks csz L c).get ⟨j, hj⟩, List.get_mem _ j hj, rfl⟩
  · rw [hrun, hpc]
  · rw [hrun, hpc]

/-- C4 witness: two single-key batches; the first hits a lock conflict, the
second succeeds. -/
theorem lock_conflict_batch_quarantined_cycle_continues_witness :
    (∀ k ∈ (cycleChunks 1 [] mixedLockCycle).get ⟨0, by decide⟩,
      lookupEntry k (run_once 1 [] mixedLockCycle).ledger =
        some (mixedLockCycle.now + mixedLockCycle.jitter k) ∧
      k ∉ (run_once 1 [] mixedLockCycle).deletedKeys) ∧
    (run_once 1 [] mixedLockCycle).contention =
      lockCount mixedLockCycle.outcome 0 (cycleChunks 1 [] mixedLockCycle) ∧
    Ev.locksWarning ∈ (run_once 1 [] mixedLockCycle).events ∧
    (mixedLockCycle.now, (cycleChunks 1 [] mixedLockCycle).get ⟨1, by decide⟩) ∈
      (run_once 1 [] mixedLockCycle).log ∧
    (run_once 1 [] mixedLockCycle).deleted =
      sumDeleted mixedLockCycle.outcome 0 (cycleChunks 1 [] mixedLockCycle) ∧
    (run_once 1 [] mixedLockCycle).aborted = false :=
  lock_conflict_batch_quarantined_cycle_continues 1 [] mixedLockCycle 0 1
    (by decide) (by decide) (by decide) rfl rfl
    (by
      intro m hm hcontra
      by_cases h0 : m = 0 <;> simp [mixedLockCycle, h0] at hcontra)

/-! Claim C7: RuleNotFound batches are abandoned without aborting. -/

/-- C7: in a cycle without unhandled failures, a batch that fails with
RuleNotFound is logged at error level and abandoned: none of its keys is
deleted, the deleted counter sums only successful batches, the cycle is not
aborted, and the next batch, when present, is still submitted. -/
theorem rule_not_found_batch_abandoned_cycle_continues
    (csz : Nat) (L : Ledger) (c : CycleInput) (i : Nat)
    (hi : i < (cycleChunks csz L c).length) (hnd : c.dids.Nodup)
    (hrnf : c.outcome i = .ruleNotFound)
    (hnoab : ∀ m, m < (cycleChunks csz L c).length → c.outcome m ≠ .otherError) :
    Ev.ruleNotFoundError ∈ (run_once csz L c).events ∧
    (∀ k ∈ (cycleChunks csz L c).get ⟨i, hi⟩, k ∉ (run_once csz L c).deletedKeys) ∧
    (run_once csz L c).deleted = sumDeleted c.outcome 0 (cycleChunks csz L c) ∧
    (run_once csz L c).aborted = false ∧
    (∀ hj : i + 1 < (cycleChunks csz L c).length,
      (c.now, (cycleChunks csz L c).get ⟨i + 1, hj⟩) ∈ (run_once csz L c).log) := by
  have hne := cycleDids_ne_nil_of_lt csz L c i hi
  have hcsz := csz_ne_zero_of_lt csz L c i hi
  have hrun := run_once_of_ne_nil csz L c hne
  have hpc := processChunks_noAbort c.now c.jitter c.outcome (cycleChunks csz L c) 0
    (purge_expired c.now L) (by intro m hm; simpa using hnoab m hm)
  have hflat := chunks_flatten csz hcsz (cycleDids L c)
  have hndflat : (cycleChunks csz L c).flatten.Nodup := by
    rw [show (cycleChunks csz L c).flatten = cycleDids L c from hflat]
    exact hnd.filter _
  refine ⟨?_, ?_, ?_, ?_, ?_⟩
  · rw [hrun, hpc]
    show Ev.ruleNotFoundError ∈ cycleEvents c.outcome 0 (cycleChunks csz L c)
    exact mem_cycleEvents_rnf c.outcome (cycleChunks csz L c) 0 i hi (by simpa using hrnf)
  · intro k hk
    rw [hrun, hpc]
    show k ∉ successKeys c.outcome 0 (cycleChunks csz L c)
    intro hmem
    obtain ⟨m, hm, hs, hkm⟩ := mem_successKeys c.outcome (cycleChunks csz L c) 0 k hmem
    have hs' : c.outcome m = .success := by simpa using hs
    have hne2 : m ≠ i := by
      intro hmi
      rw [hmi, hrnf] at hs'
      exact Outcome.noConfusion hs'
    exact nodup_chunk_get_disjoint (cycleChunks csz L c) hndflat m i hm hi hne2 k hkm hk
  · rw [hrun, hpc]
  · rw [hrun, hpc]
  · intro hj
    rw [hrun, hpc]
    show (c.now, (cycleChunks csz L c).get ⟨i + 1, hj⟩) ∈
      (cycleChunks csz L c).map (fun b => (c.now, b))
    exact List.mem_map.mpr ⟨(cycleChunks csz L c).get ⟨i + 1, hj⟩,
      List.get_mem _ (i + 1) hj, rfl⟩

/-- C7 witness: two single-key batches; the first raises RuleNotFound, the
second succeeds. -/
theorem rule_not_found_batch_abandoned_cycle_continues_witness :
    Ev.ruleNotFoundError ∈ (run_once 1 [] rnfCycle).events ∧
    (∀ k ∈ (cycleChunks 1 [] rnfCycle).get ⟨0, by decide⟩,
      k ∉ (run_once 1 [] rnfCycle).deletedKeys) ∧
    (run_once 1 [] rnfCycle).deleted =
      sumDeleted rnfCycle.outcome 0 (cycleChunks 1 [] rnfCycle) ∧
    (run_once 1 [] rnfCycle).aborted = false ∧
    (∀ hj : 0 + 1 < (cycleChunks 1 [] rnfCycle).length,
      (rnfCycle.now, (cycleChunks 1 [] rnfCycle).get ⟨0 + 1, hj⟩) ∈
        (run_once 1 [] rnfCycle).log) :=
  rule_not_found_batch_abandoned_cycle_continues 1 [] rnfCycle 0
    (by decide) (by decide) rfl
    (by
      intro m hm hcontra
      by_cases h0 : m = 0 <;> simp [rnfCycle, h0] at hcontra)

/-! Claim C1: unknown-failure isolation. The code splits the claim's
Unclassified class in two: a database-family error whose message matches no
lock regex is logged at error level and the cycle continues with the next
batch, while an exception outside the handled classes aborts the remainder
of the cycle. The claim as stated is therefore false. -/


/-- C1 counterexample: batch 0 fails with a database error matching no lock
signature, an unclassified failure, yet batch 1 is still submitted. -/
theorem unclassified_db_error_counterexample : ¬ C1Claim := by
  intro hcl
  exact hcl 1 [] dbFalseCycle 0 1 (by decide) (Or.inl rfl) (by omega) (by decide)

/-- C1 amended: when a batch fails with an exception outside the handled
classes (neither RuleNotFound nor the database-error family), the failure
is logged at critical level and the remainder of the cycle is abandoned:
the submissions are exactly the batches up to and including the failing
one, the counters and deleted keys are exactly those of the batches
completed before the failure, and the worker loop survives to run every
subsequent scheduled cycle. -/
theorem unhandled_failure_aborts_cycle (csz : Nat) (L : Ledger) (c : CycleInput) (i : Nat)
    (hi : i < (cycleChunks csz L c).length)
    (hab : c.outcome i = .otherError)
    (hfirst : ∀ m, m < i → c.outcome m ≠ .otherError) :
    (run_once csz L c).log = ((cycleChunks csz L c).take (i + 1)).map (fun b => (c.now, b)) ∧
    (run_once csz L c).aborted = true ∧
    Ev.criticalLog ∈ (run_once csz L c).events ∧
    (run_once csz L c).deleted = sumDeleted c.outcome 0 ((cycleChunks csz L c).take i) ∧
    (run_once csz L c).contention = lockCount c.outcome 0 ((cycleChunks csz L c).take i) ∧
    (run_once csz L c).deletedKeys = successKeys c.outcome 0 ((cycleChunks csz L c).take i) ∧
    (∀ rest : List CycleInput,
      runTrace csz L (c :: rest) =
        run_once csz L c :: runTrace csz (run_once csz L c).ledger rest ∧
      (runTrace csz L (c :: rest)).length = rest.length + 1) := by
  have hne := cycleDids_ne_nil_of_lt csz L c i hi
  have hrun := run_once_of_ne_nil csz L c hne
  have hpc := processChunks_abortAt c.now c.jitter c.outcome (cycleChunks csz L c) i 0
    (purge_expired c.now L) hi (by simpa using hab)
    (by intro m2 hm2; simpa using hfirst m2 hm2)
  refine ⟨?_, ?_, ?_, ?_, ?_, ?_, ?_⟩
  · rw [hrun, hpc]
  · rw [hrun, hpc]
  · rw [hrun, hpc]
    show Ev.criticalLog ∈
      cycleEvents c.outcome 0 ((cycleChunks csz L c).take i) ++
        [Ev.receiveInfo (((cycleChunks csz L c).get ⟨i, hi⟩).length), Ev.criticalLog]
    apply List.mem_append.mpr
    right
    simp
  · rw [hrun, hpc]
  · rw [hrun, hpc]
  · rw [hrun, hpc]
  · intro rest
    refine ⟨rfl, ?_⟩
    rw [show runTrace csz L (c :: rest) =
      run_once csz L c :: runTrace csz (run_once csz L c).ledger rest from rfl]
    simp [runTrace_length]

/-- C1 witness for the amended claim: three single-key batches, the middle
one fails unhandled; batch 1 is submitted, batch 2 is not, batch 0 stays
deleted and counted, and a following cycle still runs. -/
theorem unhandled_failure_aborts_cycle_witness :
    (run_once 1 [] abortCycle).log =
      ((cycleChunks 1 [] abortCycle).take (1 + 1)).map (fun b => (abortCycle.now, b)) ∧
    (run_once 1 [] abortCycle).aborted = true ∧
    Ev.criticalLog ∈ (run_once 1 [] abortCycle).events ∧
    (run_once 1 [] abortCycle).deleted =
      sumDeleted abortCycle.outcome 0 ((cycleChunks 1 [] abortCycle).take 1) ∧
    (run_once 1 [] abortCycle).contention =
      lockCount abortCycle.outcome 0 ((cycleChunks 1 [] abortCycle).take 1) ∧
    (run_once 1 [] abortCycle).deletedKeys =
      successKeys abortCycle.outcome 0 ((cycleChunks 1 [] abortCycle).take 1) ∧
    (∀ rest : List CycleInput,
      runTrace 1 [] (abortCycle :: rest) =
        run_once 1 [] abortCycle :: runTrace 1 (run_once 1 [] abortCycle).ledger rest ∧
      (runTrace 1 [] (abortCycle :: rest)).length = rest.length + 1) :=
  unhandled_failure_aborts_cycle 1 [] abortCycle 1 (by decide) rfl
    (by
      intro m hm hcontra
      have h0 : m = 0 := by omega
      subst h0
      simp [abortCycle] at hcontra)

/-! Claim C9: run in once mode. -/

/-- C9: run with once set starts exactly one loop instance regardless of
total_workers, and that instance receives the undertaker signature defaults
sleep_time 60 and chunk_size 10, not the arguments passed to run. -/
theorem run_once_mode_uses_defaults (total_workers chunk_size sleep_time : Nat) :
    run true total_workers chunk_size sleep_time = [⟨true, 60, 10⟩] ∧
    (run true total_workers chunk_size sleep_time).length = 1 := by
  constructor <;>
    simp [run, undertaker, undertaker_sleep_default, undertaker_chunk_default]

/-! Claim C10: idempotence of stop. -/

/-- C10: stop sets the shared flag; applying it twice leaves the flag in
the same (set) state as applying it once, so a second termination signal
changes nothing. -/
theorem stop_idempotent : ∀ flag : Bool, stop (stop flag) = stop flag ∧ stop flag = true := by
  intro flag
  exact ⟨rfl, rfl⟩

end Undertaker
